import Mathlib

/-!
Verification of the compilation job scheduler of the obsidian-latex-compiler
repository (`src/compiler/CompileOrchestrator.ts`) and of the settlement logic
of its Tectonic backend (`src/compiler/TectonicBackend.ts`), against the
repository's design document.

The orchestrator is embedded as a state machine: every synchronous run of
JavaScript code (an orchestrator method, or the resumption of `startJob` when
the backend promise settles) is one atomic step, reflecting the single-threaded
event-loop execution model.  Job ids, produced in the source as the opaque
unique strings `job-<timestamp>-<random>`, are modelled as counter-indexed
naturals (`idStr n` recovers the string form where the string-keyed map
matters).
-/

set_option maxHeartbeats 1000000

namespace LatexCompiler

/-- Job status strings of `CompileJob.status` (src/types.ts). -/
inductive JStatus
  | queued
  | running
  | completed
  | failed
  | cancelled
deriving DecidableEq

/-- Diagnostic severity strings (src/types.ts). -/
inductive Severity
  | error
  | warning
  | info
deriving DecidableEq

/-- One structured diagnostic record (src/types.ts `Diagnostic`). -/
structure Diagnostic where
  severity : Severity
  file : String
  line : Option Nat
  message : String
  rawText : String
  code : Option String := none
deriving DecidableEq

/-- Outcome of one compile attempt (src/types.ts `BuildResult`). -/
structure BuildResult where
  success : Bool
  pdfPath : Option String
  diagnostics : List Diagnostic
  logPath : String
  durationMs : Int
deriving DecidableEq

/-- Lifecycle events emitted by the orchestrator (`job:output` carries no
state transition and is omitted). -/
inductive Event
  | jobQueued (id : Nat)
  | jobStarted (id : Nat)
  | jobCompleted (id : Nat)
  | jobCancelled (id : Nat)
deriving DecidableEq

/-- The per-job record: the fields of `CompileJob` the scheduler reads
(`project.rootPath` is the target key, `project.mainFile` feeds synthesized
diagnostics, `status` is the lifecycle state). -/
structure JobRec where
  projectPath : String
  mainFile : String
  status : JStatus
deriving DecidableEq

/-- The orchestrator's mutable state (fields of class CompileOrchestrator),
plus the event/settlement history and the set of in-flight backend calls.

* `jobs` — every job object ever created, indexed by id.
* `activeJobs` — insertion-ordered key list of the `activeJobs` Map
  (keyed by job id, line 98).
* `activeJobCount` — the JS number field; it is an `Int` because the source
  can drive it negative.
* `projectQueues` — insertion-ordered Map from target key to queued job ids.
* `inflight` — jobs whose `backend.compile` promise is pending (invoked at
  line 104, settled later).
* `events`, `settles` — emitted lifecycle events and promise settlements, in
  order. -/
structure OrchState where
  jobs : Nat → Option JobRec
  nextId : Nat
  activeJobs : List Nat
  activeJobCount : Int
  projectQueues : List (String × List Nat)
  maxConcurrent : Int
  inflight : List Nat
  events : List Event
  settles : List (Nat × BuildResult)

/-- The job-id string of the n-th created job (source: unique opaque string
`job-<timestamp>-<random>`, line 37). -/
def idStr (n : Nat) : String := "job-" ++ toString n

/-- Lookup in an insertion-ordered string-keyed map (JS `Map.get`). -/
def qget (m : List (String × List Nat)) (k : String) : Option (List Nat) :=
  match m with
  | [] => none
  | (k2, v) :: rest => if k2 = k then some v else qget rest k

/-- JS `Map.set`: overwrite in place when the key exists, append otherwise. -/
def qset (m : List (String × List Nat)) (k : String) (v : List Nat) :
    List (String × List Nat) :=
  match m with
  | [] => [(k, v)]
  | (k2, v2) :: rest => if k2 = k then (k2, v) :: rest else (k2, v2) :: qset rest k v

/-- JS `Map.delete`: remove the entry of the key. -/
def qdel (m : List (String × List Nat)) (k : String) : List (String × List Nat) :=
  match m with
  | [] => []
  | (k2, v) :: rest => if k2 = k then qdel rest k else (k2, v) :: qdel rest k

/-- `job.project.rootPath === projectPath && job.status === 'running'`
(the scan predicate of getActiveJobForProject, line 86). -/
def runningForB (s : OrchState) (path : String) (id : Nat) : Bool :=
  match s.jobs id with
  | some r => r.projectPath == path && r.status == .running
  | none => false

/-- getActiveJobForProject (lines 84-91): first running job of the target in
`activeJobs` iteration order. -/
def getActiveJobForProject (s : OrchState) (path : String) : Option Nat :=
  s.activeJobs.find? (runningForB s path)

/-- `job.status === 'running'` for the job object with this id. -/
def runningB (s : OrchState) (id : Nat) : Bool :=
  match s.jobs id with
  | some r => r.status == .running
  | none => false

/-- The status of a job id, when the job exists. -/
def statusOf (s : OrchState) (id : Nat) : Option JStatus :=
  (s.jobs id).map (·.status)

/-- The target key of a job id, when the job exists. -/
def pathOf (s : OrchState) (id : Nat) : Option String :=
  (s.jobs id).map (·.projectPath)

/-- Mutate `job.status` of the job object with this id. -/
def setStatus (s : OrchState) (id : Nat) (st : JStatus) : OrchState :=
  { s with jobs := fun j =>
      if j = id then (s.jobs j).map (fun r => { r with status := st }) else s.jobs j }

/-- queueJob (lines 75-79): push onto the target's queue, creating it when
absent. -/
def queueJob (s : OrchState) (path : String) (id : Nat) : OrchState :=
  let q := ((qget s.projectQueues path).getD []) ++ [id]
  { s with projectQueues := qset s.projectQueues path q }

/-- The synchronous prefix of startJob (lines 96-104): mark running, register
in `activeJobs`, bump the count, emit `job:started`, and invoke
`backend.compile` (the job becomes in-flight; the continuation runs later as
`backendDone`). -/
def startJobSync (s : OrchState) (id : Nat) : OrchState :=
  let s1 := setStatus s id .running
  { s1 with
    activeJobs := s1.activeJobs ++ [id]
    activeJobCount := s1.activeJobCount + 1
    events := s1.events ++ [.jobStarted id]
    inflight := s1.inflight ++ [id] }

/-- The job-creation step of compile (lines 36-41): a fresh job object with
status queued. -/
def createJob (s : OrchState) (rootPath mainFile : String) : OrchState :=
  { s with
    jobs := fun j =>
      if j = s.nextId then
        some { projectPath := rootPath, mainFile := mainFile, status := .queued }
      else s.jobs j
    nextId := s.nextId + 1 }

/-- compile (lines 34-70): create the job; queue it when the target already
has a running job or the global count is at the ceiling, otherwise start it
immediately. -/
def compile (s : OrchState) (rootPath mainFile : String) : OrchState :=
  let id := s.nextId
  let s0 : OrchState := createJob s rootPath mainFile
  if (getActiveJobForProject s0 rootPath).isSome then
    let s1 := queueJob s0 rootPath id
    { s1 with events := s1.events ++ [.jobQueued id] }
  else if s0.maxConcurrent ≤ s0.activeJobCount then
    let s1 := queueJob s0 rootPath id
    { s1 with events := s1.events ++ [.jobQueued id] }
  else
    startJobSync s0 id

/-- The shift-then-start step shared by processNextQueuedJob (lines 153-161)
and processGlobalQueue (lines 175-183): remove the queue head (deleting the
queue when it empties) and start it. -/
def popStart (s : OrchState) (path : String) (next : Nat) (rest : List Nat) :
    OrchState :=
  let pq := if rest.isEmpty then qdel s.projectQueues path
            else qset s.projectQueues path rest
  startJobSync { s with projectQueues := pq } next

/-- processNextQueuedJob (lines 146-162): start the head of the target's
queue unless the target already has a running job. -/
def processNextQueuedJob (s : OrchState) (path : String) : OrchState :=
  match qget s.projectQueues path with
  | none => s
  | some [] => s
  | some (next :: rest) =>
    if (getActiveJobForProject s path).isSome then s
    else popStart s path next rest

/-- The loop body of processGlobalQueue (lines 170-187), walking the Map keys
in insertion order and re-reading the live state at each step. -/
def processGlobalQueueGo (s : OrchState) (keys : List String) : OrchState :=
  match keys with
  | [] => s
  | path :: rest =>
    match qget s.projectQueues path with
    | none => processGlobalQueueGo s rest
    | some q =>
      if (getActiveJobForProject s path).isSome then processGlobalQueueGo s rest
      else
        match q with
        | [] => processGlobalQueueGo s rest
        | next :: restQ =>
          let s2 := popStart s path next restQ
          if s2.maxConcurrent ≤ s2.activeJobCount then s2
          else processGlobalQueueGo s2 rest

/-- processGlobalQueue (lines 167-188). -/
def processGlobalQueue (s : OrchState) : OrchState :=
  if s.maxConcurrent ≤ s.activeJobCount then s
  else processGlobalQueueGo s (s.projectQueues.map Prod.fst)

/-- The synthesized failure of startJob's catch branch (lines 113-127):
`err` is the stringified thrown error, `dur` the measured elapsed time. -/
def errorResult (mainFile err : String) (dur : Int) : BuildResult :=
  { success := false
    pdfPath := none
    diagnostics := [{ severity := .error, file := mainFile, line := none,
                      message := "Compilation error: " ++ err, rawText := "" }]
    logPath := ""
    durationMs := dur }

/-- The resumption of startJob when the backend promise settles
(lines 104-141): the try/catch status assignment, the finally block
(bookkeeping removal, `job:completed`, queue advance) and the settlement of
the caller's promise with the produced result.  `outcome` is `.ok r` when
`backend.compile` resolved `r` and `.error e` when it threw. -/
def backendDone (s : OrchState) (id : Nat) (outcome : Except String BuildResult)
    (dur : Int) : OrchState :=
  if id ∈ s.inflight then
    match s.jobs id with
    | none => s
    | some jr =>
      let res := match outcome with
        | .ok r => r
        | .error e => errorResult jr.mainFile e dur
      let s1 := setStatus s id (match outcome with
        | .ok _ => .completed
        | .error _ => .failed)
      let s2 : OrchState := { s1 with
        inflight := s1.inflight.erase id
        activeJobs := s1.activeJobs.erase id
        activeJobCount := s1.activeJobCount - 1
        events := s1.events ++ [.jobCompleted id] }
      let s3 := processNextQueuedJob s2 jr.projectPath
      let s4 := processGlobalQueue s3
      { s4 with settles := s4.settles ++ [(id, res)] }
  else s

/-- cancelJob (lines 193-204): when the id is an active job, cancel the
backend process, mark cancelled, drop the bookkeeping entry and emit
`job:cancelled`.  The pending backend promise still settles later (the job
stays in-flight) and no queue advance is performed. -/
def cancelJob (s : OrchState) (id : Nat) : OrchState :=
  if id ∈ s.activeJobs then
    let s1 := setStatus s id .cancelled
    { s1 with
      activeJobs := s1.activeJobs.erase id
      activeJobCount := s1.activeJobCount - 1
      events := s1.events ++ [.jobCancelled id] }
  else s

/-- The Cancelled result a queued job is settled with (lines 277-289). -/
def cancelledQueueResult (mainFile : String) : BuildResult :=
  { success := false
    pdfPath := none
    diagnostics := [{ severity := .info, file := mainFile, line := none,
                      message := "Compilation cancelled (removed from queue)", rawText := "" }]
    logPath := ""
    durationMs := 0 }

/-- `job.project.mainFile` of the job object with this id (used by the
synthesized cancellation diagnostic, line 282). -/
def mfOf (s : OrchState) (id : Nat) : String :=
  match s.jobs id with
  | some r => r.mainFile
  | none => ""

/-- The per-job loop of cancelQueuedJobs (lines 275-291): mark cancelled,
resolve the job's promise, emit `job:cancelled`. -/
def cancelQueuedGo (s : OrchState) (ids : List Nat) : OrchState :=
  match ids with
  | [] => s
  | id :: rest =>
    let mf := mfOf s id
    let s1 := setStatus s id .cancelled
    let s2 : OrchState := { s1 with
      settles := s1.settles ++ [(id, cancelledQueueResult mf)]
      events := s1.events ++ [.jobCancelled id] }
    cancelQueuedGo s2 rest

/-- cancelQueuedJobs (lines 268-295): settle and cancel every queued job of
the target, delete its queue, return the count. -/
def cancelQueuedJobs (s : OrchState) (path : String) : Nat × OrchState :=
  match qget s.projectQueues path with
  | none => (0, s)
  | some q =>
    let s1 := cancelQueuedGo s q
    (q.length, { s1 with projectQueues := qdel s1.projectQueues path })

/-- The active-job loop of cancelAll (lines 211-215). -/
def cancelAllActiveGo (s : OrchState) (ids : List Nat) : OrchState :=
  match ids with
  | [] => s
  | id :: rest =>
    let s1 := setStatus s id .cancelled
    cancelAllActiveGo { s1 with events := s1.events ++ [.jobCancelled id] } rest

/-- The queue loop of cancelAll (lines 220-222). -/
def cancelAllQueuesGo (s : OrchState) (keys : List String) : OrchState :=
  match keys with
  | [] => s
  | k :: rest => cancelAllQueuesGo (cancelQueuedJobs s k).2 rest

/-- cancelAll (lines 209-223). -/
def cancelAll (s : OrchState) : OrchState :=
  let s1 := cancelAllActiveGo s s.activeJobs
  let s2 : OrchState := { s1 with activeJobs := [], activeJobCount := 0 }
  cancelAllQueuesGo s2 (s2.projectQueues.map Prod.fst)

/-- setMaxConcurrent (lines 307-309): `Math.max(1, max)`. -/
def setMaxConcurrent (s : OrchState) (n : Int) : OrchState :=
  { s with maxConcurrent := max 1 n }

/-- isCompiling (lines 228-231): looks the target key up in `activeJobs` —
a Map keyed by job-id strings (line 98) — and tests the found job's status. -/
def isCompiling (s : OrchState) (path : String) : Bool :=
  match s.activeJobs.find? (fun id => idStr id == path) with
  | some id =>
    match s.jobs id with
    | some r => r.status == .running
    | none => false
  | none => false

/-- getQueueDepth (lines 300-302). -/
def getQueueDepth (s : OrchState) (path : String) : Nat :=
  ((qget s.projectQueues path).getD []).length

/-- One externally triggered atomic step: a public orchestrator call, or the
settlement of one in-flight backend promise. -/
inductive Op
  | compile (rootPath mainFile : String)
  | backendDone (id : Nat) (outcome : Except String BuildResult) (dur : Int)
  | cancelJob (id : Nat)
  | cancelQueuedJobs (path : String)
  | cancelAll
  | setMaxConcurrent (n : Int)

def applyOp (s : OrchState) : Op → OrchState
  | .compile rp mf => compile s rp mf
  | .backendDone id o d => backendDone s id o d
  | .cancelJob id => cancelJob s id
  | .cancelQueuedJobs p => (cancelQueuedJobs s p).2
  | .cancelAll => cancelAll s
  | .setMaxConcurrent n => setMaxConcurrent s n

/-- The freshly constructed orchestrator (field initializers, lines 12-16). -/
def init : OrchState :=
  { jobs := fun _ => none
    nextId := 0
    activeJobs := []
    activeJobCount := 0
    projectQueues := []
    maxConcurrent := 2
    inflight := []
    events := []
    settles := [] }

def run (ops : List Op) : OrchState := ops.foldl applyOp init

/-- Number of jobs currently in Running status. -/
def runningCount (s : OrchState) : Nat :=
  (List.range s.nextId).countP (fun id => runningB s id)

/-- Number of terminal lifecycle events (`job:completed` or `job:cancelled`)
emitted for one job id. -/
def terminalEventsFor (id : Nat) (evs : List Event) : Nat :=
  evs.countP (fun e => e == .jobCompleted id || e == .jobCancelled id)

/-- A successful backend result used by concrete traces. -/
def okRes : BuildResult :=
  { success := true, pdfPath := some "out/main.pdf", diagnostics := [],
    logPath := "out/build.log", durationMs := 10 }

/-- Trace: with ceiling 1, job 0 (target P1) starts; job 1 (target P2)
queues; job 0 is cancelled while its backend call is still in flight. -/
def c1pre : List Op :=
  [.setMaxConcurrent 1, .compile "P1" "m1", .compile "P2" "m2", .cancelJob 0]

/-- Continuation: job 2 (target P3) starts in the slot freed by the
cancellation; then job 0's backend promise finally settles. -/
def c1suf : List Op := [.compile "P3" "m3", .backendDone 0 (.ok okRes) 5]

def c1trace : List Op := c1pre ++ c1suf

/-- C1: the claim "the number of jobs in Running status never exceeds the
configured maximum concurrency" is violated by the code: cancelling a running
job decrements `activeJobCount` once in `cancelJob` and again in the pending
`startJob` finally block, so after `c1trace` two jobs are simultaneously
Running although the ceiling is 1. -/
theorem c1_running_exceeds_ceiling :
    (run c1trace).maxConcurrent = 1 ∧ runningCount (run c1trace) = 2 ∧
      ¬ ((runningCount (run c1trace) : Int) ≤ (run c1trace).maxConcurrent) := by
  decide

/-- C3: the claim "every created Job emits exactly one terminal lifecycle
event" is violated by the code on exactly the path the claim names: job 0 of
`c1trace` is cancelled (emitting `job:cancelled`) and the later settlement of
its backend promise emits `job:completed` as well — two terminal events. -/
theorem c3_two_terminal_events :
    terminalEventsFor 0 (run c1trace).events = 2 ∧
      (run c1trace).events.count (Event.jobCancelled 0) = 1 ∧
      (run c1trace).events.count (Event.jobCompleted 0) = 1 := by
  decide

/-- C4: the claim "a Job's status never changes again after reaching a
terminal status" is violated by the code: job 0 of `c1trace` reaches the
terminal status Cancelled, and the later settlement of its backend promise
overwrites it with Completed (startJob line 108 does not re-check the
status). -/
theorem c4_terminal_status_overwritten :
    statusOf (run c1pre) 0 = some .cancelled ∧
      statusOf (run (c1pre ++ c1suf)) 0 = some .completed := by
  decide

/-- Trace: with ceiling 1, job 0 (target B) starts; job 1 (target A) queues;
job 0 is cancelled (`cancelJob` performs no queue advance); a later
submission for target A is job 2. -/
def c6trace : List Op :=
  [.setMaxConcurrent 1, .compile "B" "mb", .compile "A" "ma",
   .cancelJob 0, .compile "A" "ma"]

/-- C6: strict FIFO within one target is violated by the code: in `c6trace`
job 1 and job 2 are both submissions for target A and job 1 is earlier, yet
job 2 starts (and its backend compile is invoked) while job 1 is still
queued, because `cancelJob` does not advance the queues and `compile()` does
not check the target's queue before starting immediately. -/
theorem c6_fifo_violated :
    pathOf (run c6trace) 1 = some "A" ∧ pathOf (run c6trace) 2 = some "A" ∧
      (run c6trace).events.count (Event.jobStarted 2) = 1 ∧
      (run c6trace).events.count (Event.jobStarted 1) = 0 ∧
      (2 : Nat) ∈ (run c6trace).inflight ∧
      qget (run c6trace).projectQueues "A" = some [1] := by
  decide

/-- Trace: a single compile for target A, immediately granted a slot. -/
def c9trace : List Op := [.compile "A" "main.tex"]

/-- C9: the claim "isCompiling(targetKey) returns true iff a job with that
target key is Running" is violated by the code: `isCompiling` looks the
target key up in `activeJobs`, a map keyed by job id, so it returns false
even while job 0 (target A) is Running. -/
theorem c9_isCompiling_always_false :
    isCompiling (run c9trace) "A" = false ∧
      runningB (run c9trace) 0 = true ∧ pathOf (run c9trace) 0 = some "A" := by
  decide

/-- C10: `setMaxConcurrent n` sets the ceiling consulted by all subsequent
scheduling decisions to `max 1 n` — never below 1 — and changes nothing
else (in particular it does not preempt running jobs). -/
theorem c10_setMaxConcurrent_clamps (s : OrchState) (n : Int) :
    (setMaxConcurrent s n).maxConcurrent = max 1 n ∧
      1 ≤ (setMaxConcurrent s n).maxConcurrent ∧
      (setMaxConcurrent s n).jobs = s.jobs ∧
      (setMaxConcurrent s n).activeJobs = s.activeJobs ∧
      (setMaxConcurrent s n).activeJobCount = s.activeJobCount ∧
      (setMaxConcurrent s n).projectQueues = s.projectQueues ∧
      (setMaxConcurrent s n).inflight = s.inflight ∧
      (setMaxConcurrent s n).events = s.events ∧
      (setMaxConcurrent s n).settles = s.settles := by
  refine ⟨rfl, ?_, rfl, rfl, rfl, rfl, rfl, rfl, rfl⟩
  exact le_max_left 1 n

/-! ### Map and status helper lemmas -/

theorem qget_qset_self (m : List (String × List Nat)) (k : String) (v : List Nat) :
    qget (qset m k v) k = some v := by
  induction m with
  | nil => simp [qget, qset]
  | cons p rest ih =>
    obtain ⟨k2, v2⟩ := p
    by_cases h : k2 = k <;> simp [qget, qset, h, ih]

theorem qget_qset_ne (m : List (String × List Nat)) (k k2 : String) (v : List Nat)
    (h : k2 ≠ k) : qget (qset m k v) k2 = qget m k2 := by
  induction m with
  | nil => simp [qget, qset, Ne.symm h]
  | cons p rest ih =>
    obtain ⟨k3, v3⟩ := p
    by_cases h3 : k3 = k
    · subst h3
      have hne : ¬ k3 = k2 := fun h2 => h h2.symm
      simp [qget, qset, hne]
    · simp [qget, qset, h3, ih]

theorem qget_qdel_self (m : List (String × List Nat)) (k : String) :
    qget (qdel m k) k = none := by
  induction m with
  | nil => simp [qget, qdel]
  | cons p rest ih =>
    obtain ⟨k2, v2⟩ := p
    by_cases h : k2 = k <;> simp [qget, qdel, h, ih]

theorem qget_qdel_ne (m : List (String × List Nat)) (k k2 : String) (h : k2 ≠ k) :
    qget (qdel m k) k2 = qget m k2 := by
  induction m with
  | nil => simp [qget, qdel]
  | cons p rest ih =>
    obtain ⟨k3, v3⟩ := p
    by_cases h3 : k3 = k
    · subst h3
      have hne : ¬ k3 = k2 := fun h2 => h h2.symm
      simp [qget, qdel, hne, ih]
    · simp [qget, qdel, h3, ih]

theorem setStatus_jobs (s : OrchState) (id : Nat) (st : JStatus) (j : Nat) :
    (setStatus s id st).jobs j =
      if j = id then (s.jobs j).map (fun r => { r with status := st }) else s.jobs j := rfl

theorem pathOf_setStatus (s : OrchState) (id : Nat) (st : JStatus) (j : Nat) :
    pathOf (setStatus s id st) j = pathOf s j := by
  by_cases h : j = id
  · subst h
    cases hj : s.jobs j <;> simp [pathOf, setStatus, hj]
  · simp [pathOf, setStatus, h]

theorem runningB_iff (s : OrchState) (id : Nat) :
    runningB s id = true ↔ ∃ r, s.jobs id = some r ∧ r.status = .running := by
  cases h : s.jobs id <;> simp [runningB, h]

theorem pathOf_startJobSync (s : OrchState) (id : Nat) (j : Nat) :
    pathOf (startJobSync s id) j = pathOf s j := by
  simpa [startJobSync] using pathOf_setStatus s id .running j

/-! ### The scheduler invariant -/

/-- The strengthened state invariant preserved by every orchestrator step. -/
structure Inv (s : OrchState) : Prop where
  act_run : ∀ id, id ∈ s.activeJobs ↔ runningB s id = true
  act_nodup : s.activeJobs.Nodup
  act_uniq : ∀ id1 id2, id1 ∈ s.activeJobs → id2 ∈ s.activeJobs →
    pathOf s id1 = pathOf s id2 → id1 = id2
  queue_ok : ∀ p q, qget s.projectQueues p = some q →
    ∀ id ∈ q, ∃ r, s.jobs id = some r ∧ r.projectPath = p ∧ r.status = .queued
  queue_nodup : ∀ p q, qget s.projectQueues p = some q → q.Nodup
  fresh : ∀ k, s.nextId ≤ k → s.jobs k = none
  inflight_ok : ∀ id ∈ s.inflight, ∃ r, s.jobs id = some r ∧ r.status ≠ .queued

theorem Inv.mem_active_rec {s : OrchState} (hInv : Inv s) {id : Nat}
    (h : id ∈ s.activeJobs) : ∃ r, s.jobs id = some r ∧ r.status = .running :=
  (runningB_iff s id).mp ((hInv.act_run id).mp h)

theorem Inv.queue_not_active {s : OrchState} (hInv : Inv s) {p : String}
    {q : List Nat} {id : Nat} (hq : qget s.projectQueues p = some q) (hm : id ∈ q) :
    id ∉ s.activeJobs := by
  intro hact
  obtain ⟨r, hr, hrun⟩ := hInv.mem_active_rec hact
  obtain ⟨r2, hr2, _, hqd⟩ := hInv.queue_ok p q hq id hm
  rw [hr] at hr2
  cases hr2
  rw [hrun] at hqd
  exact absurd hqd (by simp)

theorem getActive_none_path {s : OrchState} (hInv : Inv s) {path : String}
    (h : getActiveJobForProject s path = none) :
    ∀ id ∈ s.activeJobs, pathOf s id ≠ some path := by
  intro id hid hpath
  obtain ⟨r, hr, hrun⟩ := hInv.mem_active_rec hid
  have hfind := List.find?_eq_none.mp h id hid
  have hpath2 : r.projectPath = path := by
    simpa [pathOf, hr] using hpath
  apply hfind
  simp [runningForB, hr, hrun, hpath2]

theorem runningB_startJobSync (s : OrchState) (id j : Nat) (h : j ≠ id) :
    runningB (startJobSync s id) j = runningB s j := by
  simp [runningB, startJobSync, setStatus, h]

/-- `startJobSync` preserves the invariant provided the started job exists
with status queued, no running job of its target exists, and the job sits in
no queue. -/
theorem Inv_startJobSync {s : OrchState} {id : Nat} {r : JobRec}
    (hInv : Inv s) (hr : s.jobs id = some r) (hst : r.status = .queued)
    (hact : ∀ id2 ∈ s.activeJobs, pathOf s id2 ≠ some r.projectPath)
    (hq : ∀ p q, qget s.projectQueues p = some q → id ∉ q) :
    Inv (startJobSync s id) := by
  have hidnot : id ∉ s.activeJobs := by
    intro hmem
    obtain ⟨r2, hr2, hrun⟩ := hInv.mem_active_rec hmem
    rw [hr] at hr2
    cases hr2
    simp [hst] at hrun
  have hlt : id < s.nextId := by
    by_contra hge
    push_neg at hge
    rw [hInv.fresh id hge] at hr
    cases hr
  have hactive : (startJobSync s id).activeJobs = s.activeJobs ++ [id] := rfl
  have hqueues : (startJobSync s id).projectQueues = s.projectQueues := rfl
  have hinfl : (startJobSync s id).inflight = s.inflight ++ [id] := rfl
  have hjobs : ∀ j, j ≠ id → (startJobSync s id).jobs j = s.jobs j := by
    intro j hj
    simp [startJobSync, setStatus, hj]
  have hjobs_id : (startJobSync s id).jobs id = some { r with status := .running } := by
    simp [startJobSync, setStatus, hr]
  refine ⟨?_, ?_, ?_, ?_, ?_, ?_, ?_⟩
  · intro j
    by_cases hj : j = id
    · subst hj
      rw [hactive, List.mem_append]
      simp [runningB, hjobs_id]
    · have h1 : runningB (startJobSync s id) j = runningB s j :=
        runningB_startJobSync s id j hj
      rw [h1, hactive, List.mem_append]
      simpa [hj] using hInv.act_run j
  · rw [hactive]
    simp [List.nodup_append, hInv.act_nodup, hidnot]
  · intro id1 id2 h1 h2 hpath
    rw [pathOf_startJobSync, pathOf_startJobSync] at hpath
    rw [hactive, List.mem_append] at h1 h2
    have hpid : pathOf s id = some r.projectPath := by simp [pathOf, hr]
    rcases h1 with h1a | h1b
    · rcases h2 with h2a | h2b
      · exact hInv.act_uniq id1 id2 h1a h2a hpath
      · have h2id : id2 = id := by simpa using h2b
        subst h2id
        rw [hpid] at hpath
        exact absurd hpath (hact id1 h1a)
    · have h1id : id1 = id := by simpa using h1b
      subst h1id
      rcases h2 with h2a | h2b
      · rw [hpid] at hpath
        exact absurd hpath.symm (hact id2 h2a)
      · have h2id : id2 = id1 := by simpa using h2b
        exact h2id.symm
  · intro p q hqget m hm
    rw [hqueues] at hqget
    obtain ⟨r2, hr2, hp, hq2⟩ := hInv.queue_ok p q hqget m hm
    have hmne : m ≠ id := fun hmeq => hq p q hqget (hmeq ▸ hm)
    exact ⟨r2, (hjobs m hmne).symm ▸ hr2, hp, hq2⟩
  · intro p q hqget
    rw [hqueues] at hqget
    exact hInv.queue_nodup p q hqget
  · intro k hk
    have hkne : k ≠ id := fun hkeq => absurd (hkeq ▸ hk) (Nat.not_le.mpr hlt)
    rw [hjobs k hkne]
    exact hInv.fresh k hk
  · intro m hm
    rw [hinfl, List.mem_append] at hm
    by_cases hmi : m = id
    · subst hmi
      exact ⟨{ r with status := .running }, hjobs_id, by simp⟩
    · rcases hm with hm | hm
      · obtain ⟨r2, hr2, hne⟩ := hInv.inflight_ok m hm
        exact ⟨r2, (hjobs m hmi).symm ▸ hr2, hne⟩
      · exact absurd (by simpa using hm) hmi

/-- The invariant does not mention the event log. -/
theorem Inv_set_events {s : OrchState} (hInv : Inv s) (E : List Event) :
    Inv { s with events := E } :=
  ⟨hInv.act_run, hInv.act_nodup, hInv.act_uniq, hInv.queue_ok, hInv.queue_nodup,
   hInv.fresh, hInv.inflight_ok⟩

/-- The invariant does not mention the settlement log. -/
theorem Inv_set_settles {s : OrchState} (hInv : Inv s) (L : List (Nat × BuildResult)) :
    Inv { s with settles := L } :=
  ⟨hInv.act_run, hInv.act_nodup, hInv.act_uniq, hInv.queue_ok, hInv.queue_nodup,
   hInv.fresh, hInv.inflight_ok⟩

/-- `queueJob` preserves the invariant for a queued job of the right target
that sits in no queue yet. -/
theorem Inv_queueJob {s : OrchState} {rp : String} {id : Nat} {jr : JobRec}
    (hInv : Inv s) (hid : s.jobs id = some jr) (hrp : jr.projectPath = rp)
    (hqd : jr.status = .queued)
    (hnotin : ∀ p q, qget s.projectQueues p = some q → id ∉ q) :
    Inv (queueJob s rp id) := by
  have hqueues : (queueJob s rp id).projectQueues =
      qset s.projectQueues rp (((qget s.projectQueues rp).getD []) ++ [id]) := rfl
  refine ⟨hInv.act_run, hInv.act_nodup, hInv.act_uniq, ?_, ?_, hInv.fresh,
    hInv.inflight_ok⟩
  · intro p q hg m hm
    rw [hqueues] at hg
    by_cases hp : p = rp
    · subst hp
      rw [qget_qset_self] at hg
      cases hg
      rcases List.mem_append.mp hm with hmo | hmi
      · cases hold : qget s.projectQueues p with
        | none => simp [hold] at hmo
        | some q0 =>
          rw [hold] at hmo
          exact hInv.queue_ok p q0 hold m hmo
      · have hmid : m = id := by simpa using hmi
        subst hmid
        exact ⟨jr, hid, hrp, hqd⟩
    · rw [qget_qset_ne _ _ _ _ hp] at hg
      exact hInv.queue_ok p q hg m hm
  · intro p q hg
    rw [hqueues] at hg
    by_cases hp : p = rp
    · subst hp
      rw [qget_qset_self] at hg
      cases hg
      cases hold : qget s.projectQueues p with
      | none => simp
      | some q0 =>
        simp only [Option.getD_some]
        rw [List.nodup_append]
        refine ⟨hInv.queue_nodup p q0 hold, by simp, ?_⟩
        intro a ha hab
        have haid : a = id := by simpa using hab
        exact hnotin p q0 hold (haid ▸ ha)
    · rw [qget_qset_ne _ _ _ _ hp] at hg
      exact hInv.queue_nodup p q hg

/-- Job creation preserves the invariant. -/
theorem Inv_createJob {s : OrchState} (hInv : Inv s) (rp mf : String) :
    Inv (createJob s rp mf) := by
  have hdom : ∀ j r2, s.jobs j = some r2 → j ≠ s.nextId := by
    intro j r2 hj hje
    rw [hje, hInv.fresh s.nextId (le_refl _)] at hj
    cases hj
  have hjobs : ∀ j, j ≠ s.nextId → (createJob s rp mf).jobs j = s.jobs j := by
    intro j hj
    simp [createJob, hj]
  have hjobs_id : (createJob s rp mf).jobs s.nextId =
      some { projectPath := rp, mainFile := mf, status := .queued } := by
    simp [createJob]
  refine ⟨?_, hInv.act_nodup, ?_, ?_, hInv.queue_nodup, ?_, ?_⟩
  · intro j
    by_cases hj : j = s.nextId
    · subst hj
      constructor
      · intro hmem
        obtain ⟨r2, hr2, _⟩ := hInv.mem_active_rec hmem
        exact absurd rfl (hdom s.nextId r2 hr2)
      · intro hrun
        rw [runningB, hjobs_id] at hrun
        simp at hrun
    · have h1 : runningB (createJob s rp mf) j = runningB s j := by
        simp [runningB, createJob, hj]
      rw [h1]
      exact hInv.act_run j
  · intro id1 id2 h1 h2 hpath
    obtain ⟨r1, hr1, _⟩ := hInv.mem_active_rec h1
    obtain ⟨r2, hr2, _⟩ := hInv.mem_active_rec h2
    rw [pathOf, hjobs id1 (hdom id1 r1 hr1), pathOf, hjobs id2 (hdom id2 r2 hr2)] at hpath
    exact hInv.act_uniq id1 id2 h1 h2 hpath
  · intro p q hg m hm
    obtain ⟨r2, hr2, hp2, hq2⟩ := hInv.queue_ok p q hg m hm
    exact ⟨r2, (hjobs m (hdom m r2 hr2)).symm ▸ hr2, hp2, hq2⟩
  · intro k hk
    have hk1 : s.nextId ≤ k := le_trans (Nat.le_succ _) hk
    have hkne : k ≠ s.nextId := by
      intro hke
      rw [hke] at hk
      exact absurd hk (by simp [createJob])
    rw [hjobs k hkne]
    exact hInv.fresh k hk1
  · intro m hm
    obtain ⟨r2, hr2, hne⟩ := hInv.inflight_ok m hm
    exact ⟨r2, (hjobs m (hdom m r2 hr2)).symm ▸ hr2, hne⟩

/-- `compile` preserves the invariant. -/
theorem Inv_compile {s : OrchState} (hInv : Inv s) (rp mf : String) :
    Inv (compile s rp mf) := by
  have hInv0 := Inv_createJob hInv rp mf
  have hq0 : (createJob s rp mf).projectQueues = s.projectQueues := rfl
  have hid0 : (createJob s rp mf).jobs s.nextId =
      some { projectPath := rp, mainFile := mf, status := .queued } := by
    simp [createJob]
  have hnotin0 : ∀ p q, qget (createJob s rp mf).projectQueues p = some q →
      s.nextId ∉ q := by
    intro p q hg hm
    rw [hq0] at hg
    obtain ⟨r2, hr2, _, _⟩ := hInv.queue_ok p q hg _ hm
    rw [hInv.fresh s.nextId (le_refl _)] at hr2
    cases hr2
  simp only [compile]
  split_ifs with h1 h2
  · exact Inv_set_events (Inv_queueJob hInv0 hid0 rfl rfl hnotin0) _
  · exact Inv_set_events (Inv_queueJob hInv0 hid0 rfl rfl hnotin0) _
  · have hnone : getActiveJobForProject (createJob s rp mf) rp = none :=
      Option.not_isSome_iff_eq_none.mp h1
    exact Inv_startJobSync hInv0 hid0 rfl (getActive_none_path hInv0 hnone) hnotin0

/-- Deleting a target queue preserves the invariant. -/
theorem Inv_qdelQueue {s : OrchState} (hInv : Inv s) (path : String) :
    Inv { s with projectQueues := qdel s.projectQueues path } := by
  refine ⟨hInv.act_run, hInv.act_nodup, hInv.act_uniq, ?_, ?_, hInv.fresh,
    hInv.inflight_ok⟩
  · intro p q hg2 m hm
    have hg3 : qget (qdel s.projectQueues path) p = some q := hg2
    by_cases hp : p = path
    · subst hp
      rw [qget_qdel_self] at hg3
      cases hg3
    · rw [qget_qdel_ne _ _ _ hp] at hg3
      exact hInv.queue_ok p q hg3 m hm
  · intro p q hg2
    have hg3 : qget (qdel s.projectQueues path) p = some q := hg2
    by_cases hp : p = path
    · subst hp
      rw [qget_qdel_self] at hg3
      cases hg3
    · rw [qget_qdel_ne _ _ _ hp] at hg3
      exact hInv.queue_nodup p q hg3

/-- Replacing a target queue by its own tail preserves the invariant. -/
theorem Inv_qsetRest {s : OrchState} {path : String} {next : Nat} {rest : List Nat}
    (hInv : Inv s) (hg : qget s.projectQueues path = some (next :: rest)) :
    Inv { s with projectQueues := qset s.projectQueues path rest } := by
  refine ⟨hInv.act_run, hInv.act_nodup, hInv.act_uniq, ?_, ?_, hInv.fresh,
    hInv.inflight_ok⟩
  · intro p q hg2 m hm
    have hg3 : qget (qset s.projectQueues path rest) p = some q := hg2
    by_cases hp : p = path
    · subst hp
      rw [qget_qset_self] at hg3
      cases hg3
      exact hInv.queue_ok p _ hg m (List.mem_cons_of_mem next hm)
    · rw [qget_qset_ne _ _ _ _ hp] at hg3
      exact hInv.queue_ok p q hg3 m hm
  · intro p q hg2
    have hg3 : qget (qset s.projectQueues path rest) p = some q := hg2
    by_cases hp : p = path
    · subst hp
      rw [qget_qset_self] at hg3
      cases hg3
      exact (hInv.queue_nodup p _ hg).of_cons
    · rw [qget_qset_ne _ _ _ _ hp] at hg3
      exact hInv.queue_nodup p q hg3

/-- The head of one target queue belongs to no other target's queue. -/
theorem queue_member_unique {s : OrchState} (hInv : Inv s) {path : String}
    {next : Nat} {rest : List Nat} {p : String} {q : List Nat}
    (hg : qget s.projectQueues path = some (next :: rest))
    (hg2 : qget s.projectQueues p = some q) (hne : p ≠ path) : next ∉ q := by
  intro hm
  obtain ⟨r2, hr2, hp2, _⟩ := hInv.queue_ok p q hg2 next hm
  obtain ⟨r1, hr1, hp1, _⟩ := hInv.queue_ok path _ hg next (List.mem_cons_self _ _)
  rw [hr1] at hr2
  cases hr2
  exact hne (hp2.symm.trans hp1)

/-- Popping a queue head and starting it preserves the invariant. -/
theorem Inv_popStart {s : OrchState} {path : String} {next : Nat} {rest : List Nat}
    (hInv : Inv s) (hg : qget s.projectQueues path = some (next :: rest))
    (hnone : getActiveJobForProject s path = none) :
    Inv (popStart s path next rest) := by
  simp only [popStart]
  obtain ⟨jr, hjr, hjrp, hjq⟩ :=
    hInv.queue_ok path _ hg next (List.mem_cons_self _ _)
  have hnodup := hInv.queue_nodup path _ hg
  by_cases hre : rest.isEmpty
  · simp only [hre, if_true]
    have hInv1 := Inv_qdelQueue hInv path
    refine Inv_startJobSync hInv1 hjr hjq ?_ ?_
    · intro id2 hid2
      rw [hjrp]
      exact getActive_none_path hInv1 hnone id2 hid2
    · intro p q hg2 hm
      have hg3 : qget (qdel s.projectQueues path) p = some q := hg2
      by_cases hp : p = path
      · subst hp
        rw [qget_qdel_self] at hg3
        cases hg3
      · rw [qget_qdel_ne _ _ _ hp] at hg3
        exact queue_member_unique hInv hg hg3 hp hm
  · simp only [hre, if_false]
    have hInv1 := Inv_qsetRest hInv hg
    refine Inv_startJobSync hInv1 hjr hjq ?_ ?_
    · intro id2 hid2
      rw [hjrp]
      exact getActive_none_path hInv1 hnone id2 hid2
    · intro p q hg2 hm
      have hg3 : qget (qset s.projectQueues path rest) p = some q := hg2
      by_cases hp : p = path
      · subst hp
        rw [qget_qset_self] at hg3
        cases hg3
        exact absurd hm (by simpa using hnodup.not_mem)
      · rw [qget_qset_ne _ _ _ _ hp] at hg3
        exact queue_member_unique hInv hg hg3 hp hm

/-- `processNextQueuedJob` preserves the invariant. -/
theorem Inv_processNextQueuedJob {s : OrchState} (hInv : Inv s) (path : String) :
    Inv (processNextQueuedJob s path) := by
  simp only [processNextQueuedJob]
  cases hg : qget s.projectQueues path with
  | none => exact hInv
  | some q =>
    cases q with
    | nil => exact hInv
    | cons next rest =>
      by_cases hact : (getActiveJobForProject s path).isSome
      · simp only [hact, if_true]
        exact hInv
      · simp only [hact, if_false]
        exact Inv_popStart hInv hg (Option.not_isSome_iff_eq_none.mp hact)

/-- The processGlobalQueue loop preserves the invariant. -/
theorem Inv_processGlobalQueueGo {s : OrchState} (hInv : Inv s) (keys : List String) :
    Inv (processGlobalQueueGo s keys) := by
  induction keys generalizing s with
  | nil => exact hInv
  | cons path rest ih =>
    simp only [processGlobalQueueGo]
    cases hg : qget s.projectQueues path with
    | none => exact ih hInv
    | some q =>
      by_cases hact : (getActiveJobForProject s path).isSome
      · simp only [hact, if_true]
        exact ih hInv
      · simp only [hact, if_false]
        cases q with
        | nil => exact ih hInv
        | cons next restQ =>
          have hInv2 := Inv_popStart hInv hg (Option.not_isSome_iff_eq_none.mp hact)
          by_cases hc : (popStart s path next restQ).maxConcurrent ≤ (popStart s path next restQ).activeJobCount
          · simp only [hc, if_true]
            exact hInv2
          · simp only [hc, if_false]
            exact ih hInv2

/-- `processGlobalQueue` preserves the invariant. -/
theorem Inv_processGlobalQueue {s : OrchState} (hInv : Inv s) :
    Inv (processGlobalQueue s) := by
  simp only [processGlobalQueue]
  by_cases hc : s.maxConcurrent ≤ s.activeJobCount
  · simp only [hc, if_true]
    exact hInv
  · simp only [hc, if_false]
    exact Inv_processGlobalQueueGo hInv _

theorem runningB_setStatus_ne (s : OrchState) (id : Nat) (st : JStatus) (j : Nat)
    (h : j ≠ id) : runningB (setStatus s id st) j = runningB s j := by
  simp [runningB, setStatus, h]

theorem runningB_setStatus_self (s : OrchState) (id : Nat) (st : JStatus)
    (h : st ≠ .running) : runningB (setStatus s id st) id = false := by
  cases hj : s.jobs id <;> simp [runningB, setStatus, hj, h]

/-- Setting a non-queued job to a non-running, non-queued status while
removing it from the active set preserves the invariant; the target state is
characterized by its fields (event log, count and in-flight set are free). -/
theorem Inv_dropActive {s s2 : OrchState} {id : Nat} {st : JStatus}
    (hInv : Inv s)
    (hjobs : s2.jobs = (setStatus s id st).jobs)
    (hact : s2.activeJobs = s.activeJobs.erase id)
    (hqs : s2.projectQueues = s.projectQueues)
    (hnext : s2.nextId = s.nextId)
    (hinfl : ∀ m, m ∈ s2.inflight → m ∈ s.inflight)
    (hst1 : st ≠ .running) (hst2 : st ≠ .queued)
    (hidq : ∀ jr2, s.jobs id = some jr2 → jr2.status ≠ .queued) :
    Inv s2 := by
  have hrB : ∀ j, runningB s2 j = runningB (setStatus s id st) j := by
    intro j
    simp only [runningB, hjobs]
  have hpOf : ∀ j, pathOf s2 j = pathOf s j := by
    intro j
    have h1 : pathOf s2 j = pathOf (setStatus s id st) j := by
      simp only [pathOf, hjobs]
    rw [h1]
    exact pathOf_setStatus s id st j
  have hjne : ∀ j, j ≠ id → s2.jobs j = s.jobs j := by
    intro j hj
    rw [hjobs]
    simp [setStatus, hj]
  have hnotq : ∀ p q, qget s.projectQueues p = some q → id ∉ q := by
    intro p q hg hm
    obtain ⟨r2, hr2, _, hq2⟩ := hInv.queue_ok p q hg id hm
    exact hidq r2 hr2 hq2
  refine ⟨?_, ?_, ?_, ?_, ?_, ?_, ?_⟩
  · intro j
    by_cases hj : j = id
    · subst hj
      rw [hact, hrB j, runningB_setStatus_self s j st hst1,
        hInv.act_nodup.mem_erase_iff]
      simp
    · rw [hact, hrB j, runningB_setStatus_ne s id st j hj,
        hInv.act_nodup.mem_erase_iff]
      constructor
      · intro h
        exact (hInv.act_run j).mp h.2
      · intro h
        exact ⟨hj, (hInv.act_run j).mpr h⟩
  · rw [hact]
    exact hInv.act_nodup.erase id
  · intro id1 id2 h1 h2 hpath
    rw [hact] at h1 h2
    rw [hpOf, hpOf] at hpath
    exact hInv.act_uniq id1 id2 (List.mem_of_mem_erase h1)
      (List.mem_of_mem_erase h2) hpath
  · intro p q hg m hm
    rw [hqs] at hg
    obtain ⟨r2, hr2, hp2, hq2⟩ := hInv.queue_ok p q hg m hm
    have hmne : m ≠ id := fun he => hnotq p q hg (he ▸ hm)
    exact ⟨r2, (hjne m hmne).symm ▸ hr2, hp2, hq2⟩
  · intro p q hg
    rw [hqs] at hg
    exact hInv.queue_nodup p q hg
  · intro k hk
    rw [hnext] at hk
    have hkjobs := hInv.fresh k hk
    by_cases hkid : k = id
    · subst hkid
      rw [hjobs, setStatus_jobs, if_pos rfl, hkjobs]
      rfl
    · rw [hjne k hkid]
      exact hkjobs
  · intro m hm
    have hm2 := hinfl m hm
    obtain ⟨r2, hr2, hne⟩ := hInv.inflight_ok m hm2
    by_cases hmid : m = id
    · subst hmid
      refine ⟨{ r2 with status := st }, ?_, hst2⟩
      rw [hjobs, setStatus_jobs, if_pos rfl, hr2]
      rfl
    · exact ⟨r2, (hjne m hmid).symm ▸ hr2, hne⟩

/-- `cancelJob` preserves the invariant. -/
theorem Inv_cancelJob {s : OrchState} (hInv : Inv s) (id : Nat) :
    Inv (cancelJob s id) := by
  simp only [cancelJob]
  by_cases hin : id ∈ s.activeJobs
  · rw [if_pos hin]
    have hidq : ∀ jr2, s.jobs id = some jr2 → jr2.status ≠ .queued := by
      intro jr2 hjr2 hq
      obtain ⟨r3, hr3, hrun⟩ := hInv.mem_active_rec hin
      rw [hjr2] at hr3
      cases hr3
      rw [hq] at hrun
      cases hrun
    apply Inv_dropActive hInv
    · rfl
    · rfl
    · rfl
    · rfl
    · exact fun m hm => hm
    · simp
    · simp
    · exact hidq
  · rw [if_neg hin]
    exact hInv

/-- `backendDone` preserves the invariant. -/
theorem Inv_backendDone {s : OrchState} (hInv : Inv s) (id : Nat)
    (outcome : Except String BuildResult) (dur : Int) :
    Inv (backendDone s id outcome dur) := by
  simp only [backendDone]
  by_cases hin : id ∈ s.inflight
  · rw [if_pos hin]
    cases hj : s.jobs id with
    | none => exact hInv
    | some jr =>
      have hidq : ∀ jr2, s.jobs id = some jr2 → jr2.status ≠ .queued := by
        intro jr2 hjr2
        obtain ⟨r3, hr3, hne⟩ := hInv.inflight_ok id hin
        rw [hjr2] at hr3
        cases hr3
        exact hne
      have hst1 : (match outcome with
          | .ok _ => JStatus.completed
          | .error _ => JStatus.failed) ≠ .running := by
        cases outcome <;> simp
      have hst2 : (match outcome with
          | .ok _ => JStatus.completed
          | .error _ => JStatus.failed) ≠ .queued := by
        cases outcome <;> simp
      apply Inv_set_settles
      apply Inv_processGlobalQueue
      apply Inv_processNextQueuedJob
      apply Inv_dropActive hInv
      · rfl
      · rfl
      · rfl
      · rfl
      · exact fun m hm => List.mem_of_mem_erase hm
      · exact hst1
      · exact hst2
      · exact hidq
  · rw [if_neg hin]
    exact hInv

/-! ### Characterization of the cancellation loops -/

theorem cancelQueuedGo_activeJobs (s : OrchState) (ids : List Nat) :
    (cancelQueuedGo s ids).activeJobs = s.activeJobs := by
  induction ids generalizing s with
  | nil => rfl
  | cons id rest ih => simp only [cancelQueuedGo]; rw [ih]; rfl

theorem cancelQueuedGo_projectQueues (s : OrchState) (ids : List Nat) :
    (cancelQueuedGo s ids).projectQueues = s.projectQueues := by
  induction ids generalizing s with
  | nil => rfl
  | cons id rest ih => simp only [cancelQueuedGo]; rw [ih]; rfl

theorem cancelQueuedGo_inflight (s : OrchState) (ids : List Nat) :
    (cancelQueuedGo s ids).inflight = s.inflight := by
  induction ids generalizing s with
  | nil => rfl
  | cons id rest ih => simp only [cancelQueuedGo]; rw [ih]; rfl

theorem cancelQueuedGo_nextId (s : OrchState) (ids : List Nat) :
    (cancelQueuedGo s ids).nextId = s.nextId := by
  induction ids generalizing s with
  | nil => rfl
  | cons id rest ih => simp only [cancelQueuedGo]; rw [ih]; rfl

theorem cancelQueuedGo_jobs (s : OrchState) (ids : List Nat) (j : Nat) :
    (cancelQueuedGo s ids).jobs j =
      if j ∈ ids then (s.jobs j).map (fun r => { r with status := .cancelled })
      else s.jobs j := by
  induction ids generalizing s with
  | nil => simp [cancelQueuedGo]
  | cons id rest ih =>
    simp only [cancelQueuedGo]
    rw [ih]
    by_cases hjr : j ∈ rest
    · by_cases hji : j = id
      · subst hji
        rw [if_pos hjr, if_pos (List.mem_cons_self _ _), setStatus_jobs, if_pos rfl]
        cases ho : s.jobs j <;> simp
      · rw [if_pos hjr, if_pos (List.mem_cons_of_mem _ hjr), setStatus_jobs, if_neg hji]
    · by_cases hji : j = id
      · subst hji
        rw [if_neg hjr, if_pos (List.mem_cons_self _ _), setStatus_jobs, if_pos rfl]
      · rw [if_neg hjr, if_neg (by simp [hji, hjr]), setStatus_jobs, if_neg hji]

theorem cancelAllActiveGo_activeJobs (s : OrchState) (ids : List Nat) :
    (cancelAllActiveGo s ids).activeJobs = s.activeJobs := by
  induction ids generalizing s with
  | nil => rfl
  | cons id rest ih => simp only [cancelAllActiveGo]; rw [ih]; rfl

theorem cancelAllActiveGo_projectQueues (s : OrchState) (ids : List Nat) :
    (cancelAllActiveGo s ids).projectQueues = s.projectQueues := by
  induction ids generalizing s with
  | nil => rfl
  | cons id rest ih => simp only [cancelAllActiveGo]; rw [ih]; rfl

theorem cancelAllActiveGo_inflight (s : OrchState) (ids : List Nat) :
    (cancelAllActiveGo s ids).inflight = s.inflight := by
  induction ids generalizing s with
  | nil => rfl
  | cons id rest ih => simp only [cancelAllActiveGo]; rw [ih]; rfl

theorem cancelAllActiveGo_nextId (s : OrchState) (ids : List Nat) :
    (cancelAllActiveGo s ids).nextId = s.nextId := by
  induction ids generalizing s with
  | nil => rfl
  | cons id rest ih => simp only [cancelAllActiveGo]; rw [ih]; rfl

theorem cancelAllActiveGo_jobs (s : OrchState) (ids : List Nat) (j : Nat) :
    (cancelAllActiveGo s ids).jobs j =
      if j ∈ ids then (s.jobs j).map (fun r => { r with status := .cancelled })
      else s.jobs j := by
  induction ids generalizing s with
  | nil => simp [cancelAllActiveGo]
  | cons id rest ih =>
    simp only [cancelAllActiveGo]
    rw [ih]
    by_cases hjr : j ∈ rest
    · by_cases hji : j = id
      · subst hji
        rw [if_pos hjr, if_pos (List.mem_cons_self _ _), setStatus_jobs, if_pos rfl]
        cases ho : s.jobs j <;> simp
      · rw [if_pos hjr, if_pos (List.mem_cons_of_mem _ hjr), setStatus_jobs, if_neg hji]
    · by_cases hji : j = id
      · subst hji
        rw [if_neg hjr, if_pos (List.mem_cons_self _ _), setStatus_jobs, if_pos rfl]
      · rw [if_neg hjr, if_neg (by simp [hji, hjr]), setStatus_jobs, if_neg hji]

/-- Cancelling every member of one target queue and deleting that queue
preserves the invariant (target state given by its fields). -/
theorem Inv_cancelQueuedAux {s T : OrchState} (hInv : Inv s) {path : String}
    {q : List Nat} (hg : qget s.projectQueues path = some q)
    (hjobs : ∀ j, T.jobs j =
      if j ∈ q then (s.jobs j).map (fun r => { r with status := .cancelled })
      else s.jobs j)
    (hact : T.activeJobs = s.activeJobs)
    (hqs : T.projectQueues = qdel s.projectQueues path)
    (hnext : T.nextId = s.nextId)
    (hinfl : T.inflight = s.inflight) : Inv T := by
  have hmem := hInv.queue_ok path q hg
  refine ⟨?_, ?_, ?_, ?_, ?_, ?_, ?_⟩
  · intro j
    rw [hact]
    by_cases hjq : j ∈ q
    · obtain ⟨r, hr, _, _⟩ := hmem j hjq
      have hrB : runningB T j = false := by
        simp [runningB, hjobs j, hjq, hr]
      rw [hrB]
      simp only [Bool.false_eq_true, iff_false]
      exact hInv.queue_not_active hg hjq
    · have hrB : runningB T j = runningB s j := by
        simp [runningB, hjobs j, hjq]
      rw [hrB]
      exact hInv.act_run j
  · rw [hact]
    exact hInv.act_nodup
  · have hpOf : ∀ j, pathOf T j = pathOf s j := by
      intro j
      by_cases hjq : j ∈ q
      · cases ho : s.jobs j <;> simp [pathOf, hjobs j, hjq, ho]
      · simp [pathOf, hjobs j, hjq]
    intro id1 id2 h1 h2 hpath
    rw [hact] at h1 h2
    rw [hpOf, hpOf] at hpath
    exact hInv.act_uniq id1 id2 h1 h2 hpath
  · intro p q2 hg2 m hm
    rw [hqs] at hg2
    by_cases hp : p = path
    · subst hp
      rw [qget_qdel_self] at hg2
      cases hg2
    · rw [qget_qdel_ne _ _ _ hp] at hg2
      obtain ⟨r2, hr2, hp2, hq2⟩ := hInv.queue_ok p q2 hg2 m hm
      have hmq : m ∉ q := by
        intro hmm
        obtain ⟨r3, hr3, hp3, _⟩ := hmem m hmm
        rw [hr3] at hr2
        cases hr2
        exact hp (hp2.symm.trans hp3)
      rw [hjobs m, if_neg hmq]
      exact ⟨r2, hr2, hp2, hq2⟩
  · intro p q2 hg2
    rw [hqs] at hg2
    by_cases hp : p = path
    · subst hp
      rw [qget_qdel_self] at hg2
      cases hg2
    · rw [qget_qdel_ne _ _ _ hp] at hg2
      exact hInv.queue_nodup p q2 hg2
  · intro k hk
    rw [hnext] at hk
    have hkq : k ∉ q := by
      intro hkk
      obtain ⟨r3, hr3, _, _⟩ := hmem k hkk
      rw [hInv.fresh k hk] at hr3
      cases hr3
    rw [hjobs k, if_neg hkq]
    exact hInv.fresh k hk
  · intro m hm
    rw [hinfl] at hm
    obtain ⟨r2, hr2, hne⟩ := hInv.inflight_ok m hm
    have hmq : m ∉ q := by
      intro hmm
      obtain ⟨r3, hr3, _, hq3⟩ := hmem m hmm
      rw [hr3] at hr2
      cases hr2
      exact hne hq3
    rw [hjobs m, if_neg hmq]
    exact ⟨r2, hr2, hne⟩

/-- `cancelQueuedJobs` preserves the invariant. -/
theorem Inv_cancelQueuedJobs {s : OrchState} (hInv : Inv s) (path : String) :
    Inv (cancelQueuedJobs s path).2 := by
  simp only [cancelQueuedJobs]
  cases hg : qget s.projectQueues path with
  | none => exact hInv
  | some q =>
    apply Inv_cancelQueuedAux hInv hg
    · exact fun j => cancelQueuedGo_jobs s q j
    · exact cancelQueuedGo_activeJobs s q
    · exact congrArg (fun m => qdel m path) (cancelQueuedGo_projectQueues s q)
    · exact cancelQueuedGo_nextId s q
    · exact cancelQueuedGo_inflight s q

/-- The queue-clearing loop of cancelAll preserves the invariant. -/
theorem Inv_cancelAllQueuesGo {s : OrchState} (hInv : Inv s) (keys : List String) :
    Inv (cancelAllQueuesGo s keys) := by
  induction keys generalizing s with
  | nil => exact hInv
  | cons k rest ih =>
    simp only [cancelAllQueuesGo]
    exact ih (Inv_cancelQueuedJobs hInv k)

/-- Cancelling every active job and clearing the active set preserves the
invariant (target state given by its fields). -/
theorem Inv_cancelAllMid {s T : OrchState} (hInv : Inv s)
    (hjobs : ∀ j, T.jobs j =
      if j ∈ s.activeJobs then (s.jobs j).map (fun r => { r with status := .cancelled })
      else s.jobs j)
    (hact : T.activeJobs = [])
    (hqs : T.projectQueues = s.projectQueues)
    (hnext : T.nextId = s.nextId)
    (hinfl : T.inflight = s.inflight) : Inv T := by
  refine ⟨?_, ?_, ?_, ?_, ?_, ?_, ?_⟩
  · intro j
    rw [hact]
    have hrB : runningB T j = false := by
      by_cases hjq : j ∈ s.activeJobs
      · cases ho : s.jobs j <;> simp [runningB, hjobs j, hjq, ho]
      · have h1 : runningB T j = runningB s j := by
          simp [runningB, hjobs j, hjq]
        rw [h1]
        cases hrb : runningB s j with
        | false => rfl
        | true => exact absurd ((hInv.act_run j).mpr hrb) hjq
    rw [hrB]
    simp
  · rw [hact]
    exact List.nodup_nil
  · intro id1 id2 h1 h2 hpath
    rw [hact] at h1
    cases h1
  · intro p q2 hg2 m hm
    rw [hqs] at hg2
    obtain ⟨r2, hr2, hp2, hq2⟩ := hInv.queue_ok p q2 hg2 m hm
    have hma : m ∉ s.activeJobs := hInv.queue_not_active hg2 hm
    rw [hjobs m, if_neg hma]
    exact ⟨r2, hr2, hp2, hq2⟩
  · intro p q2 hg2
    rw [hqs] at hg2
    exact hInv.queue_nodup p q2 hg2
  · intro k hk
    rw [hnext] at hk
    have hka : k ∉ s.activeJobs := by
      intro hkk
      obtain ⟨r3, hr3, _⟩ := hInv.mem_active_rec hkk
      rw [hInv.fresh k hk] at hr3
      cases hr3
    rw [hjobs k, if_neg hka]
    exact hInv.fresh k hk
  · intro m hm
    rw [hinfl] at hm
    obtain ⟨r2, hr2, hne⟩ := hInv.inflight_ok m hm
    by_cases hma : m ∈ s.activeJobs
    · refine ⟨{ r2 with status := .cancelled }, ?_, by simp⟩
      rw [hjobs m, if_pos hma, hr2]
      rfl
    · rw [hjobs m, if_neg hma]
      exact ⟨r2, hr2, hne⟩

/-- `cancelAll` preserves the invariant. -/
theorem Inv_cancelAll {s : OrchState} (hInv : Inv s) : Inv (cancelAll s) := by
  simp only [cancelAll]
  apply Inv_cancelAllQueuesGo
  apply Inv_cancelAllMid hInv
  · exact fun j => cancelAllActiveGo_jobs s s.activeJobs j
  · rfl
  · exact cancelAllActiveGo_projectQueues s s.activeJobs
  · exact cancelAllActiveGo_nextId s s.activeJobs
  · exact cancelAllActiveGo_inflight s s.activeJobs

/-- `setMaxConcurrent` preserves the invariant. -/
theorem Inv_setMaxConcurrent {s : OrchState} (hInv : Inv s) (n : Int) :
    Inv (setMaxConcurrent s n) :=
  ⟨hInv.act_run, hInv.act_nodup, hInv.act_uniq, hInv.queue_ok, hInv.queue_nodup,
   hInv.fresh, hInv.inflight_ok⟩

/-- The freshly constructed orchestrator satisfies the invariant. -/
theorem Inv_init : Inv init := by
  refine ⟨?_, ?_, ?_, ?_, ?_, ?_, ?_⟩
  · intro id
    simp [init, runningB]
  · exact List.nodup_nil
  · intro id1 id2 h1 h2 hpath
    cases h1
  · intro p q hg
    cases hg
  · intro p q hg
    cases hg
  · intro k hk
    rfl
  · intro m hm
    cases hm

/-- Every orchestrator step preserves the invariant. -/
theorem Inv_applyOp {s : OrchState} (hInv : Inv s) : ∀ op : Op, Inv (applyOp s op)
  | .compile rp mf => Inv_compile hInv rp mf
  | .backendDone id o d => Inv_backendDone hInv id o d
  | .cancelJob id => Inv_cancelJob hInv id
  | .cancelQueuedJobs p => Inv_cancelQueuedJobs hInv p
  | .cancelAll => Inv_cancelAll hInv
  | .setMaxConcurrent n => Inv_setMaxConcurrent hInv n

theorem Inv_foldl : ∀ (ops : List Op) (s : OrchState), Inv s → Inv (ops.foldl applyOp s)
  | [], _, h => h
  | op :: rest, s, h => Inv_foldl rest (applyOp s op) (Inv_applyOp h op)

/-- Every reachable orchestrator state satisfies the invariant. -/
theorem Inv_run (ops : List Op) : Inv (run ops) := Inv_foldl ops init Inv_init

/-- C2: on every reachable state — i.e. after every sequence of scheduler
operations — at most one job per target key is in Running status, and a job
sitting in a target queue is never simultaneously Running. -/
theorem c2_per_target_exclusivity (ops : List Op) :
    (∀ id1 id2, runningB (run ops) id1 = true → runningB (run ops) id2 = true →
      pathOf (run ops) id1 = pathOf (run ops) id2 → id1 = id2) ∧
    (∀ p q id, qget (run ops).projectQueues p = some q → id ∈ q →
      runningB (run ops) id = false) := by
  have hInv := Inv_run ops
  constructor
  · intro id1 id2 h1 h2 hpath
    exact hInv.act_uniq id1 id2 ((hInv.act_run id1).mpr h1)
      ((hInv.act_run id2).mpr h2) hpath
  · intro p q id hg hm
    obtain ⟨r, hr, _, hq⟩ := hInv.queue_ok p q hg id hm
    simp [runningB, hr, hq]

/-- Trace for the C2 witness: two submissions for target A, the second
queued behind the first. -/
def c2wtrace : List Op := [.compile "A" "w.tex", .compile "A" "w.tex"]

theorem c2_per_target_exclusivity_witness :
    (runningB (run c2wtrace) 0 = true ∧
      qget (run c2wtrace).projectQueues "A" = some [1]) ∧
    ((0 : Nat) = 0 ∧ runningB (run c2wtrace) 1 = false) :=
  ⟨⟨by decide, by decide⟩,
   ⟨(c2_per_target_exclusivity c2wtrace).1 0 0 (by decide) (by decide) rfl,
    (c2_per_target_exclusivity c2wtrace).2 "A" [1] 1 (by decide) (by decide)⟩⟩

/-! ### Settlement bookkeeping lemmas -/

theorem startJobSync_settles (s : OrchState) (id : Nat) :
    (startJobSync s id).settles = s.settles := rfl

theorem popStart_settles (s : OrchState) (path : String) (next : Nat)
    (rest : List Nat) : (popStart s path next rest).settles = s.settles := rfl

theorem processNextQueuedJob_settles (s : OrchState) (path : String) :
    (processNextQueuedJob s path).settles = s.settles := by
  simp only [processNextQueuedJob]
  cases hg : qget s.projectQueues path with
  | none => rfl
  | some q =>
    cases q with
    | nil => rfl
    | cons next rest =>
      by_cases hact : (getActiveJobForProject s path).isSome
      · simp only [hact, if_true]
      · simp only [hact, if_false]
        rfl

theorem processGlobalQueueGo_settles (s : OrchState) (keys : List String) :
    (processGlobalQueueGo s keys).settles = s.settles := by
  induction keys generalizing s with
  | nil => rfl
  | cons path rest ih =>
    simp only [processGlobalQueueGo]
    cases hg : qget s.projectQueues path with
    | none => exact ih s
    | some q =>
      by_cases hact : (getActiveJobForProject s path).isSome
      · simp only [hact, if_true]
        exact ih s
      · simp only [hact, if_false]
        cases q with
        | nil => exact ih s
        | cons next restQ =>
          by_cases hc : (popStart s path next restQ).maxConcurrent ≤ (popStart s path next restQ).activeJobCount
          · simp only [hc, if_true]
            exact popStart_settles s path next restQ
          · simp only [hc, if_false]
            exact (ih (popStart s path next restQ)).trans
              (popStart_settles s path next restQ)

theorem processGlobalQueue_settles (s : OrchState) :
    (processGlobalQueue s).settles = s.settles := by
  simp only [processGlobalQueue]
  by_cases hc : s.maxConcurrent ≤ s.activeJobCount
  · simp only [hc, if_true]
  · simp only [hc, if_false]
    exact processGlobalQueueGo_settles s _

/-- The settlement a backend completion appends: the backend's own result
when it resolved, the synthesized failure when it threw. -/
theorem backendDone_settles {s : OrchState} {id : Nat} {jr : JobRec}
    (hin : id ∈ s.inflight) (hjr : s.jobs id = some jr)
    (outcome : Except String BuildResult) (dur : Int) :
    (backendDone s id outcome dur).settles =
      s.settles ++ [(id, match outcome with
        | .ok r => r
        | .error e => errorResult jr.mainFile e dur)] := by
  simp only [backendDone, if_pos hin, hjr]
  rw [processGlobalQueue_settles, processNextQueuedJob_settles]
  rfl

/-- C5: settling a backend call never rejects the caller: exactly one
settlement is appended, carrying the backend's result, and when the backend
threw it is a failure `BuildResult` with exactly one error-severity
diagnostic synthesized from the thrown error. -/
theorem c5_backend_exception_contained (ops : List Op) (id : Nat)
    (outcome : Except String BuildResult) (dur : Int) (jr : JobRec)
    (hjr : (run ops).jobs id = some jr) (hin : id ∈ (run ops).inflight) :
    (backendDone (run ops) id outcome dur).settles =
      (run ops).settles ++ [(id, match outcome with
        | .ok r => r
        | .error e => errorResult jr.mainFile e dur)] ∧
    ∀ e, outcome = .error e →
      (errorResult jr.mainFile e dur).success = false ∧
      (errorResult jr.mainFile e dur).diagnostics =
        [{ severity := .error, file := jr.mainFile, line := none,
           message := "Compilation error: " ++ e, rawText := "" }] := by
  refine ⟨backendDone_settles hin hjr outcome dur, ?_⟩
  intro e he
  exact ⟨rfl, rfl⟩

/-- Trace for the C5 witness: one running job whose backend then throws. -/
def c5wtrace : List Op := [.compile "A" "w.tex"]

theorem c5_backend_exception_contained_witness :
    ((run c5wtrace).jobs 0 = some { projectPath := "A", mainFile := "w.tex", status := .running } ∧
      (0 : Nat) ∈ (run c5wtrace).inflight) ∧
    ((backendDone (run c5wtrace) 0 (.error "boom") 7).settles =
      (run c5wtrace).settles ++ [(0, errorResult "w.tex" "boom" 7)] ∧
      (errorResult "w.tex" "boom" 7).success = false) :=
  ⟨⟨by decide, by decide⟩,
   ⟨(c5_backend_exception_contained c5wtrace 0 (.error "boom") 7
      { projectPath := "A", mainFile := "w.tex", status := .running }
      (by decide) (by decide)).1,
    ((c5_backend_exception_contained c5wtrace 0 (.error "boom") 7
      { projectPath := "A", mainFile := "w.tex", status := .running }
      (by decide) (by decide)).2 "boom" rfl).1⟩⟩

/-- Does the second character list occur as a leading segment of the first? -/
def startsWithList : List Char → List Char → Bool
  | _, [] => true
  | [], _ :: _ => false
  | c :: cs, p :: ps => c == p && startsWithList cs ps

/-- Does the pattern occur anywhere in the list? -/
def containsAt : List Char → List Char → Bool
  | [], pat => pat.isEmpty
  | l@(_ :: rest), pat => startsWithList l pat || containsAt rest pat

/-- JS `String.includes`. -/
def containsSubstr (s pat : String) : Bool := containsAt s.data pat.data

theorem mfOf_setStatus (s : OrchState) (i : Nat) (st : JStatus) (j : Nat) :
    mfOf (setStatus s i st) j = mfOf s j := by
  by_cases hj : j = i
  · subst hj
    cases hjj : s.jobs j <;> simp [mfOf, setStatus, hjj]
  · simp [mfOf, setStatus, hj]

theorem settleMap_mfOf_eq (s1 s2 : OrchState) (h : mfOf s1 = mfOf s2)
    (rest : List Nat) :
    rest.map (fun j => (j, cancelledQueueResult (mfOf s1 j))) =
      rest.map (fun j => (j, cancelledQueueResult (mfOf s2 j))) := by
  rw [h]

theorem cancelQueuedGo_events (s : OrchState) (ids : List Nat) :
    (cancelQueuedGo s ids).events = s.events ++ ids.map Event.jobCancelled := by
  induction ids generalizing s with
  | nil => simp [cancelQueuedGo]
  | cons id rest ih =>
    simp only [cancelQueuedGo]
    rw [ih]
    simp [setStatus, List.append_assoc]

theorem cancelQueuedGo_settles (s : OrchState) (ids : List Nat) :
    (cancelQueuedGo s ids).settles =
      s.settles ++ ids.map (fun j => (j, cancelledQueueResult (mfOf s j))) := by
  induction ids generalizing s with
  | nil => simp [cancelQueuedGo]
  | cons id rest ih =>
    simp only [cancelQueuedGo]
    rw [ih]
    rw [settleMap_mfOf_eq
      { setStatus s id JStatus.cancelled with
        settles := (setStatus s id JStatus.cancelled).settles ++
          [(id, cancelledQueueResult (mfOf s id))]
        events := (setStatus s id JStatus.cancelled).events ++ [.jobCancelled id] }
      s (funext fun j => mfOf_setStatus s id JStatus.cancelled j) rest]
    simp [setStatus, List.append_assoc]

/-- C7: `cancelQueuedJobs` returns the queue depth of the target, deletes
the target's queue, emits exactly one `job:cancelled` per removed job,
settles each removed job with the Cancelled result (success=false, one
info-severity diagnostic whose message contains "cancelled"), touches
neither the active set nor any Running status, and never hands a removed job
to the backend; on a target without queued jobs it returns 0 and emits and
settles nothing. -/
theorem c7_cancelQueuedJobs_spec (ops : List Op) (path : String) :
    (cancelQueuedJobs (run ops) path).1 = getQueueDepth (run ops) path ∧
    qget (cancelQueuedJobs (run ops) path).2.projectQueues path = none ∧
    (cancelQueuedJobs (run ops) path).2.events =
      (run ops).events ++
        ((qget (run ops).projectQueues path).getD []).map Event.jobCancelled ∧
    (cancelQueuedJobs (run ops) path).2.settles =
      (run ops).settles ++
        ((qget (run ops).projectQueues path).getD []).map
          (fun j => (j, cancelledQueueResult (mfOf (run ops) j))) ∧
    (cancelQueuedJobs (run ops) path).2.activeJobs = (run ops).activeJobs ∧
    (cancelQueuedJobs (run ops) path).2.inflight = (run ops).inflight ∧
    (∀ id, runningB (cancelQueuedJobs (run ops) path).2 id = runningB (run ops) id) ∧
    (∀ q id, qget (run ops).projectQueues path = some q → id ∈ q →
      id ∉ (run ops).inflight) ∧
    (∀ mf, (cancelledQueueResult mf).success = false ∧
      (cancelledQueueResult mf).diagnostics =
        [{ severity := .info, file := mf, line := none,
           message := "Compilation cancelled (removed from queue)", rawText := "" }]) ∧
    containsSubstr "Compilation cancelled (removed from queue)" "cancelled" = true := by
  have hInv := Inv_run ops
  simp only [cancelQueuedJobs]
  cases hg : qget (run ops).projectQueues path with
  | none =>
    refine ⟨by simp [getQueueDepth, hg], hg, by simp, by simp, rfl, rfl,
      fun id => rfl, ?_, ?_, by decide⟩
    · intro q id hgq
      cases hgq
    · intro mf
      exact ⟨rfl, rfl⟩
  | some ql =>
    refine ⟨?_, ?_, ?_, ?_, ?_, ?_, ?_, ?_, ?_, by decide⟩
    · simp [getQueueDepth, hg]
    · exact qget_qdel_self (cancelQueuedGo (run ops) ql).projectQueues path
    · exact cancelQueuedGo_events (run ops) ql
    · exact cancelQueuedGo_settles (run ops) ql
    · exact cancelQueuedGo_activeJobs (run ops) ql
    · exact cancelQueuedGo_inflight (run ops) ql
    · intro id
      by_cases hql : id ∈ ql
      · obtain ⟨r, hr, _, hq⟩ := hInv.queue_ok path ql hg id hql
        have h1 : runningB (cancelQueuedJobs (run ops) path).2 id = false := by
          simp [runningB, cancelQueuedGo_jobs, hql, hr, cancelQueuedJobs, hg]
        have h2 : runningB (run ops) id = false := by
          simp [runningB, hr, hq]
        rw [h2]
        exact (by simpa [cancelQueuedJobs, hg] using h1)
      · have h1 : (cancelQueuedGo (run ops) ql).jobs id = (run ops).jobs id := by
          rw [cancelQueuedGo_jobs, if_neg hql]
        simp [runningB, h1]
    · intro q id hgq hql hin
      cases hgq
      obtain ⟨r, hr, _, hq⟩ := hInv.queue_ok path ql hg id hql
      obtain ⟨r2, hr2, hne⟩ := hInv.inflight_ok id hin
      rw [hr] at hr2
      cases hr2
      exact hne hq
    · intro mf
      exact ⟨rfl, rfl⟩

/-- Witness trace reuse: in `c2wtrace`, target A has the queued job 1. -/
theorem c7_cancelQueuedJobs_spec_witness :
    (qget (run c2wtrace).projectQueues "A" = some [1] ∧ (1 : Nat) ∈ [1]) ∧
    (1 : Nat) ∉ (run c2wtrace).inflight :=
  ⟨⟨by decide, by decide⟩,
   (c7_cancelQueuedJobs_spec c2wtrace "A").2.2.2.2.2.2.2.1 [1] 1
     (by decide) (by decide)⟩

/-! ### TectonicBackend: output parsing and settlement
(src/compiler/TectonicBackend.ts).  Lines are character lists; the regular
expressions of parseTectonicOutput are translated to explicit character
matching. -/

/-- JS `output.split('\n')`. -/
def splitOnNl : List Char → List (List Char)
  | [] => [[]]
  | c :: rest =>
    match splitOnNl rest with
    | [] => [[]]
    | l :: ls => if c = '\n' then [] :: l :: ls else (c :: l) :: ls

/-- Decimal digits to a number, as `parseInt` on a digit run. -/
def digitsToNat (ds : List Char) : Nat :=
  ds.foldl (fun n c => n * 10 + (c.toNat - 48)) 0

/-- `/^error: (.+)$/` (line 382): the captured remainder. -/
def matchErrorLine (l : List Char) : Option (List Char) :=
  let rest := l.drop 7
  if startsWithList l "error: ".data && !rest.isEmpty then some rest else none

/-- `/^warning: (.+)$/` (line 383). -/
def matchWarningLine (l : List Char) : Option (List Char) :=
  let rest := l.drop 9
  if startsWithList l "warning: ".data && !rest.isEmpty then some rest else none

/-- `/^! (.+)$/` (line 384). -/
def matchTexErrorLine (l : List Char) : Option (List Char) :=
  let rest := l.drop 2
  if startsWithList l "! ".data && !rest.isEmpty then some rest else none

/-- `/^l\.(\d+) /` (line 386). -/
def matchLineNumber (l : List Char) : Option Nat :=
  match l with
  | 'l' :: '.' :: rest =>
    let ds := rest.takeWhile (fun c => c.isDigit)
    if ds.isEmpty then none
    else
      match rest.drop ds.length with
      | ' ' :: _ => some (digitsToNat ds)
      | _ => none
  | _ => none

/-- One candidate split of `/^(.+\.tex):(\d+): (.+)$/` (line 385) at prefix
length `i`. -/
def fileLineAt (l : List Char) (i : Nat) : Option (List Char × Nat × List Char) :=
  let pre := l.take i
  let suf := l.drop i
  if 5 ≤ pre.length && startsWithList pre.reverse "xet.".data then
    match suf with
    | ':' :: rest =>
      let ds := rest.takeWhile (fun c => c.isDigit)
      if ds.isEmpty then none
      else
        match rest.drop ds.length with
        | ':' :: ' ' :: msg =>
          if msg.isEmpty then none else some (pre, digitsToNat ds, msg)
        | _ => none
    | _ => none
  else none

/-- `/^(.+\.tex):(\d+): (.+)$/` with the greedy (longest) first capture. -/
def matchFileLine (l : List Char) : Option (List Char × Nat × List Char) :=
  ((List.range (l.length + 1)).filterMap (fileLineAt l)).getLast?

/-- One candidate capture of `([^()]+\.tex)` within a non-paren run. -/
def fileOpenIn (r : List Char) (i : Nat) : Option (List Char) :=
  let pre := r.take i
  if 5 ≤ pre.length && startsWithList pre.reverse "xet.".data then some pre
  else none

/-- The greedy capture of `([^()]+\.tex)` within one non-paren run. -/
def fileOpenRun (r : List Char) : Option (List Char) :=
  ((List.range (r.length + 1)).filterMap (fileOpenIn r)).getLast?

/-- `/\(([^()]+\.tex)/` (line 468): first `(` whose following non-paren run
contains a usable capture. -/
def matchFileOpen : List Char → Option (List Char)
  | [] => none
  | '(' :: rest =>
    match fileOpenRun (rest.takeWhile (fun c => !(c == '(') && !(c == ')'))) with
    | some f => some f
    | none => matchFileOpen rest
  | _ :: rest => matchFileOpen rest

/-- POSIX form of node `path.isAbsolute`. -/
def isAbsolutePath (l : List Char) : Bool :=
  match l with
  | '/' :: _ => true
  | _ => false

/-- node `path.join` of two segments (normalization not modelled). -/
def pathJoin (a b : String) : String := a ++ "/" ++ b

/-- JS `String.trim`. -/
def trimList (l : List Char) : List Char :=
  ((l.dropWhile (fun c => c.isWhitespace)).reverse.dropWhile
    (fun c => c.isWhitespace)).reverse

/-- JS `stdout.slice(-n)`. -/
def lastChars (s : String) (n : Nat) : String :=
  String.mk (s.data.drop (s.data.length - n))

/-- The `l.<n>` lookahead of the classic-TeX-error branch (lines 447-453):
first match within the next (at most four) lines. -/
def lookaheadLineNum : List (List Char) → Option Nat
  | [] => none
  | l :: rest =>
    match matchLineNumber l with
    | some n => some n
    | none => lookaheadLineNum rest

/-- The per-line loop of parseTectonicOutput (lines 392-501).  `cf` is
`currentFile`; `pl` is `pendingLine`, which — exactly as in the source,
where the classic-TeX-error branch resets it before `continue` — is `none`
at the top of every iteration. -/
def parseTectonicGo (rootPath : String) :
    List (List Char) → String → Option Nat → List Diagnostic
  | [], _, _ => []
  | line :: rest, cf, pl =>
    match matchErrorLine line with
    | some m =>
      { severity := .error, file := cf, line := none, message := String.mk m,
        rawText := String.mk line, code := some "TECTONIC_ERROR" } ::
        parseTectonicGo rootPath rest cf pl
    | none =>
    match matchWarningLine line with
    | some m =>
      { severity := .warning, file := cf, line := none, message := String.mk m,
        rawText := String.mk line, code := some "TECTONIC_WARNING" } ::
        parseTectonicGo rootPath rest cf pl
    | none =>
    match matchFileLine line with
    | some (fp, ln, msg) =>
      { severity := .error,
        file := if isAbsolutePath fp then String.mk fp
                else pathJoin rootPath (String.mk fp),
        line := some ln, message := String.mk msg, rawText := String.mk line } ::
        parseTectonicGo rootPath rest cf pl
    | none =>
    match matchTexErrorLine line with
    | some m =>
      { severity := .error, file := cf, line := lookaheadLineNum (rest.take 4),
        message := String.mk m, rawText := String.mk line } ::
        parseTectonicGo rootPath rest cf none
    | none =>
      let cf2 := match matchFileOpen line with
        | some f => if isAbsolutePath f then String.mk f
                    else pathJoin rootPath (String.mk f)
        | none => cf
      if containsAt line "Package".data && containsAt line "not found".data then
        { severity := .error, file := cf2, line := none,
          message := String.mk (trimList line), rawText := String.mk line,
          code := some "MISSING_PACKAGE" } :: parseTectonicGo rootPath rest cf2 pl
      else if containsAt line "Undefined control sequence".data then
        { severity := .error, file := cf2, line := pl,
          message := "Undefined control sequence", rawText := String.mk line,
          code := some "UNDEFINED_COMMAND" } :: parseTectonicGo rootPath rest cf2 pl
      else parseTectonicGo rootPath rest cf2 pl

/-- parseTectonicOutput (lines 377-504): `currentFile` starts at the
project's main file. -/
def parseTectonicOutput (output mainFile rootPath : String) : List Diagnostic :=
  parseTectonicGo rootPath (splitOnNl output.data) mainFile none

/-- The close handler of TectonicBackend.compile (lines 206-267).
`cancelled` is the closure flag set only by the timeout arm
(lines 288-295); `cancel()` (lines 302-307) kills the process tree without
setting it, so a manually cancelled compile settles through the
`cancelled = false` path.  `code` is the process exit code (`none` models
`null` after a signal kill); `pdfPath` stands for
`path.join(outputDir, basename(mainFile, '.tex') + '.pdf')` and `pdfExists`
for the `fs.access` probe. -/
def tectonicCloseResult (cancelled : Bool) (mainFile rootPath outputDir pdfPath : String)
    (code : Option Int) (stdout stderr : String) (pdfExists : Bool)
    (dur : Int) : BuildResult :=
  if cancelled then
    { success := false
      pdfPath := none
      diagnostics := [{ severity := .info, file := mainFile, line := none,
                        message := "Compilation cancelled", rawText := "" }]
      logPath := ""
      durationMs := dur }
  else
    let buildLogPath := pathJoin outputDir "build.log"
    let diags := parseTectonicOutput (stdout ++ stderr) mainFile rootPath
    let diags2 :=
      if !pdfExists && diags.isEmpty && !(code == some 0) then
        diags ++ [{ severity := .error, file := mainFile, line := none,
                    message := "Compilation failed - check build log for details",
                    rawText := if stderr == "" then lastChars stdout 500 else stderr }]
      else diags
    { success := code == some 0 && pdfExists
      pdfPath := if pdfExists then some pdfPath else none
      diagnostics := diags2
      logPath := buildLogPath
      durationMs := dur }

/-- Every diagnostic parseTectonicOutput produces has severity error or
warning — never info. -/
theorem parseTectonicGo_no_info (rootPath : String) :
    ∀ (lines : List (List Char)) (cf : String) (pl : Option Nat),
      ∀ d ∈ parseTectonicGo rootPath lines cf pl, d.severity ≠ .info := by
  intro lines
  induction lines with
  | nil =>
    intro cf pl d hd
    simp [parseTectonicGo] at hd
  | cons line rest ih =>
    intro cf pl d hd
    simp only [parseTectonicGo] at hd
    repeat' split at hd
    all_goals try exact ih _ _ d hd
    all_goals
      rcases List.mem_cons.mp hd with h | h <;>
        first
        | (subst h; simp)
        | exact ih _ _ d h

/-- C8: a timed-out compile (timeout arm sets the `cancelled` flag before the
process closes) settles like a manual cancellation for settlement purposes —
a failure `BuildResult` is returned, never an exception — but its diagnostic
is distinguishable from anything the manual-cancel path produces: the timeout
result carries exactly one info-severity "Compilation cancelled" diagnostic,
while a manually cancelled compile (killed process, nonzero/null exit code)
settles through the normal close path whose diagnostics are never
info-severity. -/
theorem c8_timeout_vs_manual_cancel
    (mainFile rootPath outputDir pdfPath stdout stderr : String)
    (code : Option Int) (pdfExists : Bool) (durT durC : Int)
    (hkilled : code ≠ some 0) :
    (tectonicCloseResult true mainFile rootPath outputDir pdfPath code stdout
      stderr pdfExists durT).success = false ∧
    (tectonicCloseResult true mainFile rootPath outputDir pdfPath code stdout
      stderr pdfExists durT).diagnostics =
      [{ severity := .info, file := mainFile, line := none,
         message := "Compilation cancelled", rawText := "" }] ∧
    (tectonicCloseResult false mainFile rootPath outputDir pdfPath code stdout
      stderr pdfExists durC).success = false ∧
    (∀ d ∈ (tectonicCloseResult false mainFile rootPath outputDir pdfPath code
      stdout stderr pdfExists durC).diagnostics, d.severity ≠ .info) := by
  have hbeq : (code == some 0) = false := beq_eq_false_iff_ne.mpr hkilled
  refine ⟨rfl, rfl, ?_, ?_⟩
  · simp [tectonicCloseResult, hbeq]
  · intro d hd
    have hnoinfo := parseTectonicGo_no_info rootPath
      (splitOnNl (stdout ++ stderr).data) mainFile none
    simp only [tectonicCloseResult, Bool.false_eq_true, if_false] at hd
    split at hd
    · rcases List.mem_append.mp hd with h | h
      · exact hnoinfo d h
      · have hdg := List.mem_singleton.mp h
        subst hdg
        simp
    · exact hnoinfo d hd

theorem c8_timeout_vs_manual_cancel_witness :
    ((none : Option Int) ≠ some 0) ∧
    ((tectonicCloseResult true "m.tex" "/r" "/r/out" "/r/out/m.pdf" none "" ""
        false 1).success = false ∧
      (tectonicCloseResult false "m.tex" "/r" "/r/out" "/r/out/m.pdf" none "" ""
        false 2).success = false) :=
  ⟨by decide,
   (c8_timeout_vs_manual_cancel "m.tex" "/r" "/r/out" "/r/out/m.pdf" "" ""
      none false 1 2 (by decide)).1,
   (c8_timeout_vs_manual_cancel "m.tex" "/r" "/r/out" "/r/out/m.pdf" "" ""
      none false 1 2 (by decide)).2.2.1⟩

end LatexCompiler
